import Mathlib

/-!
# Verification of the Quartr document-retrieval pipeline (`app.py`)

This file shallowly embeds the pipeline of `app.py` (the `process_documents`
orchestrator and its helper components) in Lean and proves or refutes the
frozen specification claims about it.

Python strings are modelled as `List Char` (`Str`), and the handful of Python
string operations used by the source (`split`, `join`, `replace` with
one-character arguments, `lower`, lexicographic `<=`) are given executable
definitions with Python semantics.  External effects (the Quartr provider,
raw-transcript HTTP fetches, direct file fetches, S3 uploads, the Airtable
client) are supplied by an explicit environment of per-call results, so that a
run is a deterministic function of its inputs and that environment.
-/

/-- Python strings are modelled as lists of characters. -/
abbrev Str := List Char

/-- Coerce a Lean string literal into the `Str` model. -/
def pystr (s : String) : Str := s.data

/-- Python `s.replace(old, new)` for one-character `old`/`new` (the only form
the source uses: `" "→"_"` and `"/"→"_"`). -/
def replaceChar (old new : Char) (s : Str) : Str :=
  s.map (fun c => if c = old then new else c)

/-- Python `s.lower()`; ASCII case mapping (the inputs the source lowers are
event titles, company names and filenames; non-ASCII case folding is not
relevant to any claim). -/
def pyLower (s : Str) : Str := s.map Char.toLower

/-- Auxiliary worker for `pySplit`: `fuel`-indexed scan accumulating the
current piece in reverse.  `fuel ≥ rem.length` makes the fuel-exhaustion
branch unreachable. -/
def pySplitAux (sep : Str) : Nat → Str → Str → List Str
  | 0, rem, acc => [acc.reverse ++ rem]
  | fuel + 1, rem, acc =>
    match rem with
    | [] => [acc.reverse]
    | c :: rest =>
      if sep.isPrefixOf (c :: rest) then
        acc.reverse :: pySplitAux sep fuel (List.drop sep.length (c :: rest)) []
      else
        pySplitAux sep fuel rest (c :: acc)

/-- Python `s.split(sep)` for a non-empty separator: non-overlapping,
left-to-right.  (Python raises on an empty separator; the source never
passes one, and we return `[s]` in that case.) -/
def pySplit (sep s : Str) : List Str :=
  if sep.isEmpty then [s] else pySplitAux sep s.length s []

/-- Python `sep.join(pieces)`. -/
def pyJoin (sep : Str) (pieces : List Str) : Str :=
  List.intercalate sep pieces

/-- Python lexicographic `<` on strings (code-point order). -/
def pyLt : Str → Str → Bool
  | [], [] => false
  | [], _ :: _ => true
  | _ :: _, [] => false
  | a :: as, b :: bs =>
    if a.toNat < b.toNat then true
    else if b.toNat < a.toNat then false
    else pyLt as bs

/-- Python lexicographic `<=` on strings. -/
def pyLe : Str → Str → Bool
  | [], _ => true
  | _ :: _, [] => false
  | a :: as, b :: bs =>
    if a.toNat < b.toNat then true
    else if b.toNat < a.toNat then false
    else pyLe as bs

example : pySplit (pystr ". ") (pystr "A. B. C") = [pystr "A", pystr "B", pystr "C"] := by decide
example : pySplit (pystr "T") (pystr "2024-03-01T10:00:00") = [pystr "2024-03-01", pystr "10:00:00"] := by decide
example : pySplit (pystr ".") (pystr "a.") = [pystr "a", pystr ""] := by decide
example : pyJoin (pystr ".\n") [pystr "A", pystr "B"] = pystr "A.\nB" := by decide
example : pyLe (pystr "2024-01-01") (pystr "2024-01-02") = true := by decide
example : pyLe (pystr "2024-01-01") (pystr "") = false := by decide
example : pyLt (pystr "abc") (pystr "abd") = true := by decide
example : replaceChar ' ' '_' (pystr "a b") = pystr "a_b" := by decide
example : pyLower (pystr "LVMH Inc") = pystr "lvmh inc" := by decide

/-! ## Date truncation and the S3 key formatter (`format_s3_key`, app.py:222-227) -/

/-- `date.split("T")[0]`: the date portion of an ISO timestamp, as computed
throughout the source (app.py:225, 269, 289, 82). -/
def dateOnly (s : Str) : Str := (pySplit (pystr "T") s).headD []

/-- `format_s3_key` (app.py:222-227): lower-case the company name with spaces
and slashes replaced by underscores, truncate the date at the first `T`,
lower-case the filename with spaces (only) replaced by underscores, and join
the four parts with `/`. -/
def format_s3_key (company_name date doc_type filename : Str) : Str :=
  let clean_company := pyLower (replaceChar '/' '_' (replaceChar ' ' '_' company_name))
  let clean_date := dateOnly date
  let clean_filename := pyLower (replaceChar ' ' '_' filename)
  clean_company ++ pystr "/" ++ clean_date ++ pystr "/" ++ doc_type ++ pystr "/" ++ clean_filename

/-- Modelled from the spec's words (claim C3, spec §8/§4.1), for comparison
with `format_s3_key`: `lower(company')/date_prefix/category/lower(filename')`
where the prime replaces spaces *and* slashes by underscores in both the
company name and the filename, and `date_prefix` is the substring of the date
before the first `T`. -/
def formatKeySpec (company_name date doc_type filename : Str) : Str :=
  pyLower (replaceChar '/' '_' (replaceChar ' ' '_' company_name)) ++ pystr "/" ++
    date.takeWhile (fun c => c ≠ 'T') ++ pystr "/" ++ doc_type ++ pystr "/" ++
    pyLower (replaceChar '/' '_' (replaceChar ' ' '_' filename))

/-- As `formatKeySpec`, but with the slash substitution restricted to the
company name — the amendment of claim C3 forced by the source, which only
replaces spaces in the filename. -/
def formatKeySpecAmended (company_name date doc_type filename : Str) : Str :=
  pyLower (replaceChar '/' '_' (replaceChar ' ' '_' company_name)) ++ pystr "/" ++
    date.takeWhile (fun c => c ≠ 'T') ++ pystr "/" ++ doc_type ++ pystr "/" ++
    pyLower (replaceChar ' ' '_' filename)

/-! ### The head of a one-character split is `takeWhile` -/

theorem pySplitAux_single_headD (c : Char) :
    ∀ (fuel : Nat) (rem acc : Str), rem.length ≤ fuel →
      (pySplitAux [c] fuel rem acc).headD [] =
        acc.reverse ++ rem.takeWhile (fun x => x ≠ c) := by
  intro fuel
  induction fuel with
  | zero =>
    intro rem acc h
    have : rem = [] := List.length_eq_zero.mp (Nat.le_zero.mp h)
    subst this
    simp [pySplitAux]
  | succ n ih =>
    intro rem acc h
    match rem with
    | [] => simp [pySplitAux]
    | x :: rest =>
      by_cases hx : x = c
      · subst hx
        have hpre : List.isPrefixOf [x] (x :: rest) = true := by
          simp [List.isPrefixOf]
        simp [pySplitAux, hpre, List.takeWhile]
      · have hpre : List.isPrefixOf [c] (x :: rest) = false := by
          simp [List.isPrefixOf]
          exact fun hcx => absurd hcx.symm hx
        have hlen : rest.length ≤ n := by
          simpa [List.length_cons, Nat.succ_le_succ_iff] using h
        simp only [pySplitAux, hpre, Bool.false_eq_true, if_false]
        rw [ih rest (x :: acc) hlen]
        simp [List.takeWhile, hx]

theorem pySplit_single_headD (c : Char) (s : Str) :
    (pySplit [c] s).headD [] = s.takeWhile (fun x => x ≠ c) := by
  simpa [pySplit] using pySplitAux_single_headD c s.length s [] (Nat.le_refl _)

theorem dateOnly_eq_takeWhile (s : Str) :
    dateOnly s = s.takeWhile (fun c => c ≠ 'T') := by
  have : pystr "T" = ['T'] := rfl
  rw [dateOnly, this, pySplit_single_headD]

/-! ### Order lemmas for the Python string comparison -/

theorem pyLe_refl : ∀ s : Str, pyLe s s = true := by
  intro s
  induction s with
  | nil => rfl
  | cons a as ih => simp [pyLe, ih]

theorem pyLe_eq_false_of_pyLt : ∀ a b : Str, pyLt a b = true → pyLe b a = false := by
  intro a
  induction a with
  | nil =>
    intro b h
    match b with
    | [] => simp [pyLt] at h
    | _ :: _ => rfl
  | cons x xs ih =>
    intro b h
    match b with
    | [] => simp [pyLt] at h
    | y :: ys =>
      rcases Nat.lt_trichotomy x.toNat y.toNat with hlt | heq | hgt
      · simp [pyLe, Nat.lt_asymm hlt, hlt]
      · have hxs : pyLt xs ys = true := by
          simpa [pyLt, heq, Nat.lt_irrefl] using h
        simp [pyLe, heq, Nat.lt_irrefl, ih ys hxs]
      · simp [pyLt, Nat.lt_asymm hgt, hgt] at h

/-! ### The last piece of a one-character split: text after the last occurrence -/

/-- The suffix of `s` after the last occurrence of `c` (all of `s` when `c`
does not occur).  This is the natural reading of "the extension is the text
after the last dot", used to state the amended claim C8. -/
def lastAfter (c : Char) (s : Str) : Str :=
  (s.reverse.takeWhile (fun x => x ≠ c)).reverse

theorem takeWhile_append_of_all {p : Char → Bool} :
    ∀ (l l2 : Str), (∀ a ∈ l, p a = true) →
      (l ++ l2).takeWhile p = l ++ l2.takeWhile p := by
  intro l
  induction l with
  | nil => intro l2 _; rfl
  | cons a l ih =>
    intro l2 h
    have ha : p a = true := h a (List.mem_cons_self a l)
    simp [List.takeWhile, ha, ih l2 (fun x hx => h x (List.mem_cons_of_mem a hx))]

theorem takeWhile_append_of_stop {p : Char → Bool} :
    ∀ (l l2 : Str), (∃ a ∈ l, p a = false) →
      (l ++ l2).takeWhile p = l.takeWhile p := by
  intro l
  induction l with
  | nil =>
    intro l2 h
    rcases h with ⟨a, ha, _⟩
    exact absurd ha (List.not_mem_nil a)
  | cons a l ih =>
    intro l2 h
    by_cases hpa : p a = true
    · rcases h with ⟨b, hb, hpb⟩
      have hbl : b ∈ l := by
        rcases List.mem_cons.mp hb with hba | hbl
        · subst hba; rw [hpa] at hpb; exact absurd hpb (by simp)
        · exact hbl
      simp [List.takeWhile, hpa, ih l2 ⟨b, hbl, hpb⟩]
    · have : p a = false := by
        cases hv : p a
        · rfl
        · exact absurd hv hpa
      simp [List.takeWhile, this]

theorem takeWhile_all {p : Char → Bool} :
    ∀ l : Str, (∀ a ∈ l, p a = true) → l.takeWhile p = l := by
  intro l
  induction l with
  | nil => intro _; rfl
  | cons a l ih =>
    intro h
    have ha : p a = true := h a (List.mem_cons_self a l)
    rw [List.takeWhile, ha, ih (fun x hx => h x (List.mem_cons_of_mem a hx))]

theorem lastAfter_of_not_mem (c : Char) (l : Str) (h : c ∉ l) : lastAfter c l = l := by
  have hall : ∀ a ∈ l.reverse, (fun x => decide (x ≠ c)) a = true := by
    intro a ha
    have ha2 : a ∈ l := List.mem_reverse.mp ha
    simp only [decide_eq_true_eq]
    intro hac
    exact absurd (hac ▸ ha2) h
  unfold lastAfter
  rw [takeWhile_all l.reverse hall, List.reverse_reverse]

theorem lastAfter_cons_of_mem (c x : Char) (rest : Str) (h : c ∈ rest) :
    lastAfter c (x :: rest) = lastAfter c rest := by
  have hstop : ∃ a ∈ rest.reverse, (fun x => decide (x ≠ c)) a = false :=
    ⟨c, List.mem_reverse.mpr h, by simp⟩
  unfold lastAfter
  rw [List.reverse_cons, takeWhile_append_of_stop rest.reverse [x] hstop]

theorem lastAfter_cons_self_of_not_mem (c : Char) (rest : Str) (h : c ∉ rest) :
    lastAfter c (c :: rest) = rest := by
  have hall : ∀ a ∈ rest.reverse, (fun x => decide (x ≠ c)) a = true := by
    intro a ha
    have ha2 : a ∈ rest := List.mem_reverse.mp ha
    simp only [decide_eq_true_eq]
    intro hac
    exact absurd (hac ▸ ha2) h
  unfold lastAfter
  rw [List.reverse_cons, takeWhile_append_of_all rest.reverse [c] hall]
  simp [List.takeWhile]

theorem pySplitAux_ne_nil (sep : Str) :
    ∀ (fuel : Nat) (rem acc : Str), pySplitAux sep fuel rem acc ≠ [] := by
  intro fuel
  cases fuel with
  | zero => intro rem acc; simp [pySplitAux]
  | succ n =>
    intro rem acc
    match rem with
    | [] => simp [pySplitAux]
    | x :: rest =>
      by_cases hpre : sep.isPrefixOf (x :: rest) = true
      · simp [pySplitAux, hpre]
      · have : sep.isPrefixOf (x :: rest) = false := by
          cases hv : sep.isPrefixOf (x :: rest)
          · rfl
          · exact absurd hv hpre
        simp only [pySplitAux, this, Bool.false_eq_true, if_false]
        exact pySplitAux_ne_nil sep n rest (x :: acc)

theorem getLastD_indep {α : Type} :
    ∀ (L : List α) (d1 d2 : α), L ≠ [] → L.getLastD d1 = L.getLastD d2 := by
  intro L d1 d2 h
  match L with
  | [] => exact absurd rfl h
  | a :: l => rw [List.getLastD_cons, List.getLastD_cons]

theorem pySplitAux_single_getLastD (c : Char) :
    ∀ (fuel : Nat) (rem acc : Str), rem.length ≤ fuel →
      (pySplitAux [c] fuel rem acc).getLastD [] =
        if c ∈ rem then lastAfter c rem else acc.reverse ++ rem := by
  intro fuel
  induction fuel with
  | zero =>
    intro rem acc h
    have : rem = [] := List.length_eq_zero.mp (Nat.le_zero.mp h)
    subst this
    simp [pySplitAux]
  | succ n ih =>
    intro rem acc h
    match rem with
    | [] => simp [pySplitAux]
    | x :: rest =>
      have hlen : rest.length ≤ n := by
        simpa [List.length_cons, Nat.succ_le_succ_iff] using h
      by_cases hx : x = c
      · subst hx
        have hpre : List.isPrefixOf [x] (x :: rest) = true := by
          simp [List.isPrefixOf]
        have hmem : x ∈ x :: rest := List.mem_cons_self x rest
        simp only [pySplitAux, hpre, if_true, List.length_cons, List.drop_succ_cons,
          List.length_nil, List.drop_zero, List.getLastD_cons, hmem]
        rw [getLastD_indep (pySplitAux [x] n rest []) acc.reverse []
          (pySplitAux_ne_nil [x] n rest [])]
        rw [ih rest [] hlen]
        by_cases hm : x ∈ rest
        · rw [if_pos hm, lastAfter_cons_of_mem x x rest hm]
        · rw [if_neg hm, lastAfter_cons_self_of_not_mem x rest hm]
          simp
      · have hpre : List.isPrefixOf [c] (x :: rest) = false := by
          simp [List.isPrefixOf]
          exact fun hcx => absurd hcx.symm hx
        simp only [pySplitAux, hpre, Bool.false_eq_true, if_false]
        rw [ih rest (x :: acc) hlen]
        have hmem_iff : (c ∈ x :: rest) = (c ∈ rest) := by
          simp [List.mem_cons]
          intro hcx
          exact absurd hcx.symm hx
        by_cases hm : c ∈ rest
        · rw [if_pos hm, if_pos (by rw [hmem_iff]; exact hm),
            lastAfter_cons_of_mem c x rest hm]
        · rw [if_neg hm, if_neg (by rw [hmem_iff]; exact hm)]
          simp

theorem pySplit_single_getLastD (c : Char) (s : Str) :
    (pySplit [c] s).getLastD [] = lastAfter c s := by
  have h := pySplitAux_single_getLastD c s.length s [] (Nat.le_refl _)
  by_cases hm : c ∈ s
  · rw [pySplit]
    simp only [List.isEmpty, Bool.false_eq_true, if_false]
    rw [h, if_pos hm]
  · rw [pySplit]
    simp only [List.isEmpty, Bool.false_eq_true, if_false]
    rw [h, if_neg hm, lastAfter_of_not_mem c s hm]
    simp

/-! ## Calendar dates

The UI (app.py:436-448) restricts the window bounds to real calendar dates
between 2000-01-01 and 2025-12-31, rendered with `strftime("%Y-%m-%d")`
(zero-padded, app.py:490-491).  To state claim C6's "one day before/after" we
model such dates structurally and render them the same way. -/

structure EDate where
  y : Nat
  m : Nat
  d : Nat
deriving DecidableEq

/-- Gregorian leap-year rule (as implemented by Python's `datetime`). -/
def isLeap (y : Nat) : Bool :=
  (y % 4 = 0 && y % 100 ≠ 0) || y % 400 = 0

def daysInMonth (y m : Nat) : Nat :=
  if m = 2 then (if isLeap y then 29 else 28)
  else if m = 4 ∨ m = 6 ∨ m = 9 ∨ m = 11 then 30 else 31

/-- A real calendar date inside the range the UI can produce (year capped
at 2030, comfortably above the UI's 2025 maximum). -/
def validDate (dt : EDate) : Prop :=
  2000 ≤ dt.y ∧ dt.y ≤ 2030 ∧ 1 ≤ dt.m ∧ dt.m ≤ 12 ∧ 1 ≤ dt.d ∧ dt.d ≤ daysInMonth dt.y dt.m

instance (dt : EDate) : Decidable (validDate dt) := by
  unfold validDate
  infer_instance

/-- The calendar successor of a date. -/
def nextDay (dt : EDate) : EDate :=
  if dt.d < daysInMonth dt.y dt.m then ⟨dt.y, dt.m, dt.d + 1⟩
  else if dt.m < 12 then ⟨dt.y, dt.m + 1, 1⟩
  else ⟨dt.y + 1, 1, 1⟩

def digitChar : Nat → Char
  | 0 => '0'
  | 1 => '1'
  | 2 => '2'
  | 3 => '3'
  | 4 => '4'
  | 5 => '5'
  | 6 => '6'
  | 7 => '7'
  | 8 => '8'
  | 9 => '9'
  | _ => '0'

def pad2 (n : Nat) : Str := [digitChar (n / 10 % 10), digitChar (n % 10)]

def pad4 (n : Nat) : Str :=
  [digitChar (n / 1000 % 10), digitChar (n / 100 % 10), digitChar (n / 10 % 10),
    digitChar (n % 10)]

/-- `strftime("%Y-%m-%d")` rendering of a date. -/
def isoOf (dt : EDate) : Str :=
  pad4 dt.y ++ pystr "-" ++ pad2 dt.m ++ pystr "-" ++ pad2 dt.d

example : isoOf ⟨2024, 3, 1⟩ = pystr "2024-03-01" := by decide
example : nextDay ⟨2024, 2, 28⟩ = ⟨2024, 2, 29⟩ := by decide
example : nextDay ⟨2023, 2, 28⟩ = ⟨2023, 3, 1⟩ := by decide
example : nextDay ⟨2024, 12, 31⟩ = ⟨2025, 1, 1⟩ := by decide

theorem daysInMonth_le_31 (y m : Nat) : daysInMonth y m ≤ 31 := by
  unfold daysInMonth
  split
  · split <;> omega
  · split <;> omega

theorem pyLt_append_same : ∀ (pre u v : Str), pyLt u v = true →
    pyLt (pre ++ u) (pre ++ v) = true := by
  intro pre
  induction pre with
  | nil => intro u v h; simpa using h
  | cons a as ih =>
    intro u v h
    simp only [List.cons_append, pyLt, Nat.lt_irrefl, if_false]
    exact ih u v h

theorem pyLt_append_of_lt : ∀ (u v a b : Str), u.length = v.length →
    pyLt u v = true → pyLt (u ++ a) (v ++ b) = true := by
  intro u
  induction u with
  | nil =>
    intro v a b hlen h
    have : v = [] := List.length_eq_zero.mp hlen.symm
    subst this
    simp [pyLt] at h
  | cons x xs ih =>
    intro v a b hlen h
    match v with
    | [] => simp at hlen
    | y :: ys =>
      have hlen2 : xs.length = ys.length := by simpa using hlen
      rcases Nat.lt_trichotomy x.toNat y.toNat with hlt | heq | hgt
      · simp [pyLt, hlt]
      · have hxs : pyLt xs ys = true := by
          simpa [pyLt, heq, Nat.lt_irrefl] using h
        simp only [List.cons_append, pyLt, heq, Nat.lt_irrefl, if_false]
        exact ih ys a b hlen2 hxs
      · simp [pyLt, Nat.lt_asymm hgt, hgt] at h

theorem pad2_lt_all :
    ((List.range 32).all fun b => (List.range b).all fun a => pyLt (pad2 a) (pad2 b)) = true := by
  decide

theorem pad2_lt_bounded (b : Nat) (hb : b < 32) (a : Nat) (ha : a < b) :
    pyLt (pad2 a) (pad2 b) = true := by
  have h1 := List.all_eq_true.mp pad2_lt_all _ (List.mem_range.mpr hb)
  exact List.all_eq_true.mp h1 _ (List.mem_range.mpr ha)

theorem pad4_year_lt_all :
    ((List.range 31).all fun k => pyLt (pad4 (2000 + k)) (pad4 (2000 + k + 1))) = true := by
  decide

theorem pad4_year_lt_bounded (k : Nat) (hk : k < 31) :
    pyLt (pad4 (2000 + k)) (pad4 (2000 + k + 1)) = true :=
  List.all_eq_true.mp pad4_year_lt_all _ (List.mem_range.mpr hk)

theorem pad4_year_lt (y : Nat) (h1 : 2000 ≤ y) (h2 : y ≤ 2030) :
    pyLt (pad4 y) (pad4 (y + 1)) = true := by
  obtain ⟨k, hk, rfl⟩ : ∃ k, k < 31 ∧ 2000 + k = y := ⟨y - 2000, by omega, by omega⟩
  exact pad4_year_lt_bounded k hk

/-- The rendered successor of a valid date is lexicographically strictly
greater — the bridge between calendar "one day later" and the string
comparison the source performs. -/
theorem pyLt_isoOf_nextDay (dt : EDate) (hv : validDate dt) :
    pyLt (isoOf dt) (isoOf (nextDay dt)) = true := by
  obtain ⟨hy1, hy2, hm1, hm2, hd1, hd2⟩ := hv
  by_cases h1 : dt.d < daysInMonth dt.y dt.m
  · have hnext : nextDay dt = ⟨dt.y, dt.m, dt.d + 1⟩ := by
      unfold nextDay; rw [if_pos h1]
    rw [hnext]
    show pyLt ((pad4 dt.y ++ pystr "-" ++ pad2 dt.m ++ pystr "-") ++ pad2 dt.d)
      ((pad4 dt.y ++ pystr "-" ++ pad2 dt.m ++ pystr "-") ++ pad2 (dt.d + 1))
    apply pyLt_append_same
    have hb : dt.d + 1 < 32 := by
      have := daysInMonth_le_31 dt.y dt.m
      omega
    exact pad2_lt_bounded (dt.d + 1) hb dt.d (Nat.lt_succ_self _)
  · by_cases h2 : dt.m < 12
    · have hnext : nextDay dt = ⟨dt.y, dt.m + 1, 1⟩ := by
        unfold nextDay; rw [if_neg h1, if_pos h2]
      rw [hnext]
      show pyLt ((pad4 dt.y ++ pystr "-") ++ (pad2 dt.m ++ (pystr "-" ++ pad2 dt.d)))
        ((pad4 dt.y ++ pystr "-") ++ (pad2 (dt.m + 1) ++ (pystr "-" ++ pad2 1)))
      apply pyLt_append_same
      apply pyLt_append_of_lt
      · rfl
      · exact pad2_lt_bounded (dt.m + 1) (by omega) dt.m (Nat.lt_succ_self _)
    · have hnext : nextDay dt = ⟨dt.y + 1, 1, 1⟩ := by
        unfold nextDay; rw [if_neg h1, if_neg h2]
      rw [hnext]
      show pyLt (pad4 dt.y ++ (pystr "-" ++ (pad2 dt.m ++ (pystr "-" ++ pad2 dt.d))))
        (pad4 (dt.y + 1) ++ (pystr "-" ++ (pad2 1 ++ (pystr "-" ++ pad2 1))))
      apply pyLt_append_of_lt
      · rfl
      · exact pad4_year_lt dt.y hy1 hy2

theorem digitChar_ne_T : ∀ n : Nat, digitChar n ≠ 'T' := by
  intro n
  unfold digitChar
  split <;> decide

theorem mem_pad2_ne_T (n : Nat) : ∀ c ∈ pad2 n, c ≠ 'T' := by
  intro c hc
  simp only [pad2, List.mem_cons, List.not_mem_nil, or_false] at hc
  rcases hc with h | h <;> (subst h; exact digitChar_ne_T _)

theorem mem_pad4_ne_T (n : Nat) : ∀ c ∈ pad4 n, c ≠ 'T' := by
  intro c hc
  simp only [pad4, List.mem_cons, List.not_mem_nil, or_false] at hc
  rcases hc with h | h | h | h <;> (subst h; exact digitChar_ne_T _)

theorem mem_isoOf_ne_T (dt : EDate) : ∀ c ∈ isoOf dt, c ≠ 'T' := by
  intro c hc
  simp only [isoOf, List.append_assoc, List.mem_append] at hc
  rcases hc with h | h | h | h | h
  · exact mem_pad4_ne_T _ c h
  · have : c = '-' := by simpa [pystr] using h
    rw [this]; decide
  · exact mem_pad2_ne_T _ c h
  · have : c = '-' := by simpa [pystr] using h
    rw [this]; decide
  · exact mem_pad2_ne_T _ c h

theorem dateOnly_isoOf (dt : EDate) : dateOnly (isoOf dt) = isoOf dt := by
  rw [dateOnly_eq_takeWhile]
  apply takeWhile_all
  intro a ha
  simp only [decide_eq_true_eq]
  exact mem_isoOf_ne_T dt a ha

/-! ## Data model (app.py §3): provider responses, events, environments

External calls are modelled by explicit per-call results.  Each candidate
document consumes one `CandEnv` (indexed by the number of candidates processed
so far), holding the outcome of every external interaction its handling may
perform.  A `raised` constructor marks a call that raises an exception *not*
caught inside the called component. -/

/-- The nested `transcripts` object of an event (`event.get('transcripts')`).
`none` models an absent or empty (falsy) dict. -/
structure Transcripts where
  transcriptUrl : Option Str

/-- One event dict from the provider.  `docUrl dt` models
`event.get(f'{dt}Url')` (app.py:272, 294); absent keys are `none`. -/
structure Event where
  eventDate : Option Str
  eventTitle : Option Str
  transcripts : Option Transcripts
  docUrl : Str → Option Str

/-- One company dict from the provider (`displayName`, `isins`, `events`). -/
structure CompanyDict where
  displayName : Option Str
  isins : Option (List Str)
  events : Option (List Event)

/-- Result of the raw-transcript fetch inside `process_transcript`
(app.py:121-138).  `raised` = transport exception (caught there, line 139);
`resp` carries HTTP status, the `Content-Type` header, whether the body
decodes as JSON, and the decoded `transcript.text` field (with `''` for an
absent field, line 126). -/
inductive TFetchRes
  | raised
  | resp (status : Nat) (contentTypeHeader : Option Str) (jsonOk : Bool) (text : Str)
deriving DecidableEq

/-- Result of a direct `session.get(file_url)` in the audio/other branches
(app.py:331, 350).  `raised` = transport exception — *not* caught at the
candidate, it propagates to the outer handler (app.py:410-412). -/
inductive FileRes
  | raised
  | resp (status : Nat) (contentTypeHeader : Option Str) (tag : Nat)
deriving DecidableEq

/-- The external outcomes available to one candidate's handling:
raw-transcript fetch, direct file fetch, S3 `put_object` success
(`upload_file` catches internally, app.py:218-220), whether the per-candidate
`AirtableHandler()` construction succeeds (it *raises* on failure,
app.py:72), and whether `table.create` succeeds (`create_record` catches
internally, app.py:97-109). -/
structure CandEnv where
  tFetch : TFetchRes
  fileFetch : FileRes
  uploadOk : Bool
  airtableInitOk : Bool
  airtableCreateOk : Bool

/-- Artifact bytes: either the black-box PDF rendering of a transcript
(`create_pdf`, treated per spec §1 as an opaque renderer of its inputs) or
bytes fetched over HTTP (identified by the environment's tag). -/
inductive Blob
  | pdfDoc (company title date text : Str)
  | fetched (tag : Nat)
deriving DecidableEq

/-- One `upload_file` invocation (app.py:207-216). -/
structure UploadAttempt where
  bucket : Str
  key : Str
  contentType : Str
  blob : Blob
deriving DecidableEq

/-- One `create_record` invocation with its arguments (app.py:371-378). -/
structure MetaRec where
  company : Str
  isin : Str
  aws_url : Str
  eventDate : Str
  eventTitle : Str
  docType : Str
deriving DecidableEq

/-- The run counters plus the log of external writes. -/
structure RunState where
  processed : Nat
  successful : Nat
  failed : Nat
  uploads : List UploadAttempt
  records : List MetaRec
deriving DecidableEq

def initState : RunState := ⟨0, 0, 0, [], []⟩

/-! ## Transcript processing (`TranscriptProcessor.process_transcript`, app.py:113-141) -/

/-- The reformatting transform (app.py:127-128): split on `". "`, rejoin
with `".\n"`. -/
def formatTranscriptText (text : Str) : Str :=
  pyJoin (pystr ".\n") (pySplit (pystr ". ") text)

/-- Python substring containment (`sub in s`). -/
def strContains (sub : Str) : Str → Bool
  | [] => sub.isEmpty
  | c :: rest => sub.isPrefixOf (c :: rest) || strContains sub rest

/-- `process_transcript`: returns the formatted text, or `''` when the
transcripts object has no (or an empty) `transcriptUrl`, the fetch raises or
returns non-200, the content type is not JSON, or the body fails to decode.
An empty extracted text also yields `''` (splitting and rejoining `''` is
`''`). -/
def processTranscript (t : Transcripts) (fetch : TFetchRes) : Str :=
  match t.transcriptUrl with
  | none => []
  | some u =>
    if u.isEmpty then []
    else
      match fetch with
      | TFetchRes.raised => []
      | TFetchRes.resp status ctHeader jsonOk text =>
        if status = 200 then
          if strContains (pystr "application/json") (ctHeader.getD []) then
            if jsonOk then formatTranscriptText text else []
          else []
        else []

/-! ## Candidate enumeration and the date window (app.py:267-297) -/

/-- `start_date <= event.get('eventDate','').split('T')[0] <= end_date`
(app.py:269-270, 289-292): Python chained string comparison. -/
def inWindow (startD endD : Str) (ev : Event) : Bool :=
  let d := dateOnly (ev.eventDate.getD [])
  pyLe startD d && pyLe d endD

/-- Truthiness of `event.get(url_field)`: present and non-empty. -/
def truthyStr : Option Str → Bool
  | none => false
  | some s => !s.isEmpty

/-- A (event, docType) pair is a candidate iff the event is in the window and
the `{docType}Url` field is truthy (app.py:270-273, 292-297). -/
def candidateB (startD endD : Str) (ev : Event) (dt : Str) : Bool :=
  inWindow startD endD ev && truthyStr (ev.docUrl dt)

/-- Inner counting loop over the selected doc types (app.py:271-274). -/
def countSel (sel : List Str) (ev : Event) : Nat :=
  sel.countP (fun dt => truthyStr (ev.docUrl dt))

/-- Per-event candidate count (app.py:268-274). -/
def countEvent (startD endD : Str) (sel : List Str) (ev : Event) : Nat :=
  if inWindow startD endD ev then countSel sel ev else 0

/-- Per-company candidate count (app.py:267-274). -/
def countCompany (startD endD : Str) (sel : List Str) (c : CompanyDict) : Nat :=
  ((c.events.getD []).map (countEvent startD endD sel)).sum

/-- `total_files` computed by the Phase-3 counting pass. -/
def countTotal (startD endD : Str) (sel : List Str) (companies : List CompanyDict) : Nat :=
  (companies.map (countCompany startD endD sel)).sum

/-! ## Per-candidate processing (Phase 4, app.py:280-397) -/

/-- One candidate document: the unit of work of the processing pass. -/
structure Cand where
  companyName : Str
  isin : Str
  ev : Event
  docType : Str
  url : Str

/-- The artifact produced by a successful fetch/transform: bytes, S3 key and
content type, ready for `upload_file`. -/
structure Artifact where
  blob : Blob
  key : Str
  contentType : Str

def digitVal (c : Char) : Nat := c.toNat - 48

/-- `datetime.strptime(s, '%Y-%m-%d')` succeeding (app.py:82): the
zero-padded ISO form with a real calendar month and day.  (CPython also
accepts non-zero-padded fields; no claim depends on that corner, and the
run-level results only consume this through `createRecordResult`.) -/
def isoParseOk (s : Str) : Bool :=
  match s with
  | [y1, y2, y3, y4, sep1, m1, m2, sep2, d1, d2] =>
    y1.isDigit && y2.isDigit && y3.isDigit && y4.isDigit &&
    m1.isDigit && m2.isDigit && d1.isDigit && d2.isDigit &&
    sep1 == '-' && sep2 == '-' &&
    (let y := ((digitVal y1 * 10 + digitVal y2) * 10 + digitVal y3) * 10 + digitVal y4
     let m := digitVal m1 * 10 + digitVal m2
     let d := digitVal d1 * 10 + digitVal d2
     decide (1 ≤ m) && decide (m ≤ 12) && decide (1 ≤ d) && decide (d ≤ daysInMonth y m))
  | _ => false

example : isoParseOk (pystr "2024-02-29") = true := by decide
example : isoParseOk (pystr "2023-02-29") = false := by decide
example : isoParseOk (pystr "") = false := by decide

/-- `file_url.split('.')[-1].lower()` (app.py:334): the audio "extension" —
the lowercased text after the *last dot of the whole URL*. -/
def fileExtensionOf (url : Str) : Str :=
  pyLower ((pySplit (pystr ".") url).getLastD [])

/-- Modelled from the spec's words (claim C8, spec §4.3): the extension of
the URL's *trailing path segment*, for comparison with `fileExtensionOf`. -/
def trailingSegExt (url : Str) : Str :=
  (pySplit (pystr ".") ((pySplit (pystr "/") url).getLastD [])).getLastD []

/-- The fetch/transform dispatch (app.py:300-364): produce an artifact, or
`none` when no artifact results (candidate keeps `success = False`), or
`Except.error` when an uncaught exception is raised (direct fetch transport
error). -/
def fetchArtifact (ce : CandEnv) (c : Cand) : Except Unit (Option Artifact) :=
  let event_date := dateOnly (c.ev.eventDate.getD [])
  let event_title := c.ev.eventTitle.getD (pystr "Unknown Event")
  if c.docType = pystr "transcript" then
    match c.ev.transcripts with
    | none => Except.ok none
    | some t =>
      let transcript_text := processTranscript t ce.tFetch
      if transcript_text.isEmpty then Except.ok none
      else
        let fname := replaceChar ' ' '_' (pyLower event_title) ++ pystr "_transcript.pdf"
        Except.ok (some ⟨Blob.pdfDoc c.companyName event_title event_date transcript_text,
          format_s3_key c.companyName event_date c.docType fname,
          pystr "application/pdf"⟩)
  else if c.docType = pystr "audio" then
    match ce.fileFetch with
    | FileRes.raised => Except.error ()
    | FileRes.resp status _ tag =>
      if status = 200 then
        let file_extension := fileExtensionOf c.url
        let fname := replaceChar ' ' '_' (pyLower event_title) ++ pystr "." ++ file_extension
        let ctype := if file_extension = pystr "mpeg" then pystr "audio/mpeg"
          else pystr "audio/mp3"
        Except.ok (some ⟨Blob.fetched tag,
          format_s3_key c.companyName event_date c.docType fname, ctype⟩)
      else Except.ok none
  else
    match ce.fileFetch with
    | FileRes.raised => Except.error ()
    | FileRes.resp status ctHeader tag =>
      if status = 200 then
        let fname := (pySplit (pystr "/") c.url).getLastD []
        Except.ok (some ⟨Blob.fetched tag,
          format_s3_key c.companyName event_date c.docType fname,
          ctHeader.getD (pystr "application/pdf")⟩)
      else Except.ok none

/-- The arguments of the `create_record` call for a candidate
(app.py:371-378): note the raw `eventDate` and the `''`-defaulted title. -/
def mkMetaRec (c : Cand) (bucket key : Str) : MetaRec :=
  ⟨c.companyName, c.isin, pystr "s3://" ++ bucket ++ pystr "/" ++ key,
    c.ev.eventDate.getD [], c.ev.eventTitle.getD [], c.docType⟩

/-- The boolean returned by `create_record` (app.py:81-109): `False` when the
internal `strptime` of the date raises, otherwise the Airtable API outcome. -/
def createRecordResult (ce : CandEnv) (c : Cand) : Bool :=
  isoParseOk (dateOnly (c.ev.eventDate.getD [])) && ce.airtableCreateOk

/-- The value of the `success` flag after the dispatch (app.py:298-364):
true iff an artifact was produced and its upload reported success. -/
def candSuccess (ce : CandEnv) (c : Cand) : Bool :=
  match fetchArtifact ce c with
  | Except.ok (some _) => ce.uploadOk
  | _ => false

/-- Handling of one candidate (app.py:297-397): dispatch, upload, conditional
metadata write, counter updates.  `Except.error st` models an uncaught
exception aborting the run with the counters at that moment (the source logs
and re-raises, app.py:410-412). -/
def handleCandidate (ce : CandEnv) (bucket : Str) (c : Cand) (st : RunState) :
    Except RunState RunState :=
  match fetchArtifact ce c with
  | Except.error _ => Except.error st
  | Except.ok none =>
    Except.ok { st with failed := st.failed + 1, processed := st.processed + 1 }
  | Except.ok (some a) =>
    let st1 := { st with uploads := st.uploads ++ [⟨bucket, a.key, a.contentType, a.blob⟩] }
    if ce.uploadOk then
      if ce.airtableInitOk then
        let st2 := { st1 with records := st1.records ++ [mkMetaRec c bucket a.key] }
        if createRecordResult ce c then
          Except.ok
            { st2 with successful := st2.successful + 1, processed := st2.processed + 1 }
        else
          Except.ok { st2 with failed := st2.failed + 1, processed := st2.processed + 1 }
      else Except.error st1
    else Except.ok { st1 with failed := st1.failed + 1, processed := st1.processed + 1 }

/-- Inner loop over the selected doc types for one in-window event
(app.py:293-397).  The environment is indexed by the processed count, which
increases by exactly one per handled candidate. -/
def processSel (env : Nat → CandEnv) (bucket name isin : Str) (ev : Event) :
    List Str → RunState → Except RunState RunState
  | [], st => Except.ok st
  | dt :: rest, st =>
    if truthyStr (ev.docUrl dt) then
      match handleCandidate (env st.processed) bucket
          ⟨name, isin, ev, dt, (ev.docUrl dt).getD []⟩ st with
      | Except.error e => Except.error e
      | Except.ok st' => processSel env bucket name isin ev rest st'
    else processSel env bucket name isin ev rest st

/-- One event of the processing pass (app.py:288-292): the window test guards
the doc-type loop. -/
def processEvent (env : Nat → CandEnv) (bucket startD endD name isin : Str)
    (sel : List Str) (ev : Event) (st : RunState) : Except RunState RunState :=
  if inWindow startD endD ev then processSel env bucket name isin ev sel st
  else Except.ok st

def processEvents (env : Nat → CandEnv) (bucket startD endD name isin : Str)
    (sel : List Str) : List Event → RunState → Except RunState RunState
  | [], st => Except.ok st
  | ev :: rest, st =>
    match processEvent env bucket startD endD name isin sel ev st with
    | Except.error e => Except.error e
    | Except.ok st' => processEvents env bucket startD endD name isin sel rest st'

/-- One company of the processing pass (app.py:281-292).
`company.get('isins', ['unknown'])[0]` raises `IndexError` when the `isins`
field is present but an empty list — an uncaught exception that aborts the
run; otherwise the first identifier is the canonical one. -/
def processCompany (env : Nat → CandEnv) (bucket startD endD : Str) (sel : List Str)
    (c : CompanyDict) (st : RunState) : Except RunState RunState :=
  match c.isins.getD [pystr "unknown"] with
  | [] => Except.error st
  | isin :: _ =>
    processEvents env bucket startD endD (c.displayName.getD (pystr "unknown")) isin sel
      (c.events.getD []) st

def processCompanies (env : Nat → CandEnv) (bucket startD endD : Str) (sel : List Str) :
    List CompanyDict → RunState → Except RunState RunState
  | [], st => Except.ok st
  | c :: rest, st =>
    match processCompany env bucket startD endD sel c st with
    | Except.error e => Except.error e
    | Except.ok st' => processCompanies env bucket startD endD sel rest st'

/-! ## The run (`process_documents`, app.py:229-412) -/

/-- Identifier validity (app.py:250): the provider response is truthy and has
an `events` key.  `get_company_events` itself catches transport errors and
non-200 responses, returning `{}` (modelled `none`), so Phases 1-3 cannot
raise. -/
def isValidResp : Option CompanyDict → Bool
  | none => false
  | some c => c.events.isSome

/-- Phase 1 (app.py:246-253): the identifiers whose provider data validates. -/
def validIsins (provider : Str → Option CompanyDict) (isins : List Str) : List Str :=
  isins.filter (fun i => isValidResp (provider i))

/-- Phase 2 (app.py:259-264): re-fetch each valid identifier, keeping truthy
responses. -/
def companiesData (provider : Str → Option CompanyDict) (isins : List Str) :
    List CompanyDict :=
  (validIsins provider isins).filterMap provider

/-- How a run ends: the two reported early exits, normal completion (with the
Phase-3 total), or an uncaught exception (logged and re-raised,
app.py:410-412). -/
inductive Outcome
  | noValidIsins
  | noDocs
  | completed (total : Nat)
  | aborted
deriving DecidableEq

/-- `process_documents`: validation, re-fetch, counting pass, early exits,
processing pass.  Returns the outcome plus the final counters and
upload/metadata logs. -/
def run (provider : Str → Option CompanyDict) (env : Nat → CandEnv)
    (isins : List Str) (startD endD : Str) (sel : List Str) (bucket : Str) :
    Outcome × RunState :=
  let valid := validIsins provider isins
  if valid.isEmpty then (Outcome.noValidIsins, initState)
  else
    let companies := companiesData provider isins
    let total := countTotal startD endD sel companies
    if total = 0 then (Outcome.noDocs, initState)
    else
      match processCompanies env bucket startD endD sel companies initState with
      | Except.ok st => (Outcome.completed total, st)
      | Except.error st => (Outcome.aborted, st)

theorem fileExtensionOf_eq_lastAfter (url : Str) :
    fileExtensionOf url = pyLower (lastAfter '.' url) := by
  have h : pystr "." = ['.'] := rfl
  rw [fileExtensionOf, h, pySplit_single_getLastD]

/-! ## Shared concrete fixtures for witnesses -/

def exEventAudio : Event :=
  { eventDate := some (pystr "2024-06-01T14:00:00")
    eventTitle := some (pystr "Q2 Call")
    transcripts := none
    docUrl := fun dt =>
      if dt = pystr "audio" then some (pystr "http://cdn.example.com/files/q2.mp3") else none }

def exEventNoDate : Event :=
  { eventDate := none
    eventTitle := some (pystr "Call")
    transcripts := none
    docUrl := fun _ => some (pystr "http://x/y.pdf") }

def exCompany : CompanyDict :=
  { displayName := some (pystr "Acme Corp")
    isins := some [pystr "US0001"]
    events := some [exEventAudio] }

def exProvider : Str → Option CompanyDict :=
  fun i => if i = pystr "US0001" then some exCompany else none

def exEnvOk : Nat → CandEnv :=
  fun _ => ⟨TFetchRes.raised, FileRes.resp 200 (some (pystr "audio/mpeg")) 7, true, true, true⟩

/-! ## The claims -/

/-- C9 (confirmed): the transcript formatting transform splits on `". "` and
rejoins with `".\n"`; on `"A. B. C"` it yields `"A.\nB.\nC"`, and re-splitting
that output on `".\n"` reproduces the same three segments as the original
split. -/
theorem C9_theorem :
    formatTranscriptText (pystr "A. B. C") = pystr "A.\nB.\nC" ∧
    pySplit (pystr ". ") (pystr "A. B. C") = [pystr "A", pystr "B", pystr "C"] ∧
    pySplit (pystr ".\n") (pystr "A.\nB.\nC") = [pystr "A", pystr "B", pystr "C"] := by
  decide

/-- C3 counterexample: the claim says slashes are replaced by underscores in
the *filename* as well, but `format_s3_key` only does that for the company
name: on filename `"Q1/Slides.pdf"` the code keeps the slash while the
claim's formula replaces it. -/
theorem C3_counterexample :
    format_s3_key (pystr "LVMH Inc") (pystr "2024-03-01T10:00:00") (pystr "slides")
        (pystr "Q1/Slides.pdf") =
      pystr "lvmh_inc/2024-03-01/slides/q1/slides.pdf" ∧
    formatKeySpec (pystr "LVMH Inc") (pystr "2024-03-01T10:00:00") (pystr "slides")
        (pystr "Q1/Slides.pdf") =
      pystr "lvmh_inc/2024-03-01/slides/q1_slides.pdf" ∧
    format_s3_key (pystr "LVMH Inc") (pystr "2024-03-01T10:00:00") (pystr "slides")
        (pystr "Q1/Slides.pdf") ≠
      formatKeySpec (pystr "LVMH Inc") (pystr "2024-03-01T10:00:00") (pystr "slides")
        (pystr "Q1/Slides.pdf") := by
  decide

/-- C3 (corrected): for every input, `format_s3_key` returns
`lower(company')/date_prefix/category/lower(filename'')` where the company
name has spaces and slashes replaced by underscores, the filename has only
spaces replaced (slashes are kept), and `date_prefix` is the substring before
the first `T`. -/
theorem C3_theorem (company_name date doc_type filename : Str) :
    format_s3_key company_name date doc_type filename =
      formatKeySpecAmended company_name date doc_type filename := by
  unfold format_s3_key formatKeySpecAmended
  rw [dateOnly_eq_takeWhile]

/-- C8 counterexample: the audio extension is taken after the last dot of the
*whole URL*, not of its trailing path segment: on
`"https://host.com/audio"` the code computes `"com/audio"` while the
trailing path segment gives `"audio"`. -/
theorem C8_counterexample :
    fileExtensionOf (pystr "https://host.com/audio") = pystr "com/audio" ∧
    pyLower (trailingSegExt (pystr "https://host.com/audio")) = pystr "audio" ∧
    fileExtensionOf (pystr "https://host.com/audio") ≠
      pyLower (trailingSegExt (pystr "https://host.com/audio")) := by
  decide

/-- C8 (corrected): for an audio candidate whose direct fetch returns 200,
the extension is the lowercased text after the *last dot of the whole URL*
(which coincides with the trailing path segment's extension whenever that
segment contains a dot), the synthesized filename ends with it, and the
upload content type is `audio/mpeg` iff that extension is `mpeg`, else
`audio/mp3`. -/
theorem C8_theorem (ce : CandEnv) (c : Cand) (ct : Option Str) (tag : Nat)
    (hdt : c.docType = pystr "audio")
    (hf : ce.fileFetch = FileRes.resp 200 ct tag) :
    fileExtensionOf c.url = pyLower (lastAfter '.' c.url) ∧
    fetchArtifact ce c = Except.ok (some
      ⟨Blob.fetched tag,
        format_s3_key c.companyName (dateOnly (c.ev.eventDate.getD [])) c.docType
          (replaceChar ' ' '_' (pyLower (c.ev.eventTitle.getD (pystr "Unknown Event"))) ++
            pystr "." ++ pyLower (lastAfter '.' c.url)),
        if pyLower (lastAfter '.' c.url) = pystr "mpeg" then pystr "audio/mpeg"
          else pystr "audio/mp3"⟩) := by
  refine ⟨fileExtensionOf_eq_lastAfter c.url, ?_⟩
  rw [show (Except.ok (some
      ⟨Blob.fetched tag,
        format_s3_key c.companyName (dateOnly (c.ev.eventDate.getD [])) c.docType
          (replaceChar ' ' '_' (pyLower (c.ev.eventTitle.getD (pystr "Unknown Event"))) ++
            pystr "." ++ pyLower (lastAfter '.' c.url)),
        if pyLower (lastAfter '.' c.url) = pystr "mpeg" then pystr "audio/mpeg"
          else pystr "audio/mp3"⟩) : Except Unit (Option Artifact)) =
    Except.ok (some
      ⟨Blob.fetched tag,
        format_s3_key c.companyName (dateOnly (c.ev.eventDate.getD [])) c.docType
          (replaceChar ' ' '_' (pyLower (c.ev.eventTitle.getD (pystr "Unknown Event"))) ++
            pystr "." ++ fileExtensionOf c.url),
        if fileExtensionOf c.url = pystr "mpeg" then pystr "audio/mpeg"
          else pystr "audio/mp3"⟩)
    from by rw [fileExtensionOf_eq_lastAfter]]
  simp [fetchArtifact, hdt, hf]
  intro h
  exact absurd h (by decide)

/-- Witness for C8 at a concrete audio candidate. -/
theorem C8_witness :
    fetchArtifact ⟨TFetchRes.raised, FileRes.resp 200 none 3, true, true, true⟩
      ⟨pystr "Acme", pystr "US1",
        ⟨some (pystr "2024-06-01"), some (pystr "Call"), none, fun _ => none⟩,
        pystr "audio", pystr "http://x/y.mp3"⟩ =
    Except.ok (some ⟨Blob.fetched 3, pystr "acme/2024-06-01/audio/call.mp3",
      pystr "audio/mp3"⟩) := by
  have h := C8_theorem ⟨TFetchRes.raised, FileRes.resp 200 none 3, true, true, true⟩
    ⟨pystr "Acme", pystr "US1",
      ⟨some (pystr "2024-06-01"), some (pystr "Call"), none, fun _ => none⟩,
      pystr "audio", pystr "http://x/y.mp3"⟩ none 3 rfl rfl
  rw [h.2]
  rfl

/-- C10 (confirmed): an event with an absent (or empty) `eventDate` is never
a candidate when `start_date` is non-empty: the missing date becomes `''`,
which falls below the window's lower bound, so the event contributes nothing
to the Phase-3 total and the processing pass leaves the state unchanged. -/
theorem C10_theorem (startD endD : Str) (sel : List Str) (ev : Event)
    (hne : startD ≠ [])
    (hdate : ev.eventDate = none ∨ ev.eventDate = some []) :
    (∀ dt, candidateB startD endD ev dt = false) ∧
    countEvent startD endD sel ev = 0 ∧
    (∀ (env : Nat → CandEnv) (bucket name isin : Str) (st : RunState),
      processEvent env bucket startD endD name isin sel ev st = Except.ok st) := by
  have hgetD : ev.eventDate.getD [] = [] := by
    rcases hdate with h | h <;> rw [h] <;> rfl
  have hdo : dateOnly (ev.eventDate.getD []) = [] := by rw [hgetD]; rfl
  have hwin : inWindow startD endD ev = false := by
    cases startD with
    | nil => exact absurd rfl hne
    | cons a as => simp [inWindow, hdo, pyLe]
  refine ⟨fun dt => ?_, ?_, fun env bucket name isin st => ?_⟩
  · simp [candidateB, hwin]
  · simp [countEvent, hwin]
  · simp [processEvent, hwin]

/-- Witness for C10 at a concrete date-less event. -/
theorem C10_witness :
    candidateB (pystr "2024-01-01") (pystr "2024-12-31") exEventNoDate (pystr "slides")
        = false ∧
    countEvent (pystr "2024-01-01") (pystr "2024-12-31") [pystr "slides"] exEventNoDate
        = 0 ∧
    processEvent exEnvOk (pystr "bkt") (pystr "2024-01-01") (pystr "2024-12-31")
        (pystr "Acme Corp") (pystr "US0001") [pystr "slides"] exEventNoDate initState =
      Except.ok initState := by
  have h := C10_theorem (pystr "2024-01-01") (pystr "2024-12-31") [pystr "slides"]
    exEventNoDate (by decide) (Or.inl rfl)
  exact ⟨h.1 (pystr "slides"), h.2.1,
    h.2.2 exEnvOk (pystr "bkt") (pystr "Acme Corp") (pystr "US0001") initState⟩

/-- C7 (confirmed): when the Phase-3 counting pass finds zero candidates (and
at least one identifier validated, so the run reaches Phase 3), the run
reports the "no matching documents" outcome and terminates with the initial
state: no uploads and no metadata writes were attempted. -/
theorem C7_theorem (provider : Str → Option CompanyDict) (env : Nat → CandEnv)
    (isins : List Str) (startD endD : Str) (sel : List Str) (bucket : Str)
    (hvalid : validIsins provider isins ≠ [])
    (htotal : countTotal startD endD sel (companiesData provider isins) = 0) :
    run provider env isins startD endD sel bucket = (Outcome.noDocs, initState) ∧
    initState.uploads = [] ∧ initState.records = [] := by
  have hne : (validIsins provider isins).isEmpty = false := by
    cases h : validIsins provider isins with
    | nil => exact absurd h hvalid
    | cons a l => rfl
  refine ⟨?_, rfl, rfl⟩
  simp [run, hne, htotal]

/-- Witness for C7: a window in 2025 matching no events of the fixture. -/
theorem C7_witness :
    run exProvider exEnvOk [pystr "US0001"] (pystr "2025-01-01") (pystr "2025-12-31")
      [pystr "audio"] (pystr "bkt") = (Outcome.noDocs, initState) :=
  (C7_theorem exProvider exEnvOk [pystr "US0001"] (pystr "2025-01-01")
    (pystr "2025-12-31") [pystr "audio"] (pystr "bkt") (by decide) (by decide)).1

/-- C6 (confirmed): the window test is inclusive at both ends — an event
dated exactly `start_date` or `end_date` (with a truthy URL) is a candidate,
while an event dated one calendar day before `start_date` or one calendar day
after `end_date` is not.  Dates are real calendar dates in the range the UI
can produce, rendered as `strftime("%Y-%m-%d")` strings; "one day before
`start_date`" means a valid date `d` with `nextDay d = s`. -/
theorem C6_theorem (s e d : EDate) (_hs : validDate s) (he : validDate e)
    (hd : validDate d) (ev : Event) (dt : Str)
    (hurl : truthyStr (ev.docUrl dt) = true)
    (hwin : pyLe (isoOf s) (isoOf e) = true) :
    ((ev.eventDate = some (isoOf s) ∨ ev.eventDate = some (isoOf e)) →
      candidateB (isoOf s) (isoOf e) ev dt = true) ∧
    (ev.eventDate = some (isoOf d) → nextDay d = s →
      candidateB (isoOf s) (isoOf e) ev dt = false) ∧
    (ev.eventDate = some (isoOf (nextDay e)) →
      candidateB (isoOf s) (isoOf e) ev dt = false) := by
  refine ⟨?_, ?_, ?_⟩
  · intro h
    rcases h with h | h <;>
      simp [candidateB, inWindow, h, dateOnly_isoOf, pyLe_refl, hwin, hurl]
  · intro h hnd
    have hlt : pyLt (isoOf d) (isoOf s) = true := by
      have := pyLt_isoOf_nextDay d hd
      rwa [hnd] at this
    have hfalse : pyLe (isoOf s) (isoOf d) = false := pyLe_eq_false_of_pyLt _ _ hlt
    simp [candidateB, inWindow, h, dateOnly_isoOf, hfalse]
  · intro h
    have hlt : pyLt (isoOf e) (isoOf (nextDay e)) = true := pyLt_isoOf_nextDay e he
    have hfalse : pyLe (isoOf (nextDay e)) (isoOf e) = false :=
      pyLe_eq_false_of_pyLt _ _ hlt
    simp [candidateB, inWindow, h, dateOnly_isoOf, hfalse]

def exEvJan1 : Event :=
  ⟨some (pystr "2024-01-01"), some (pystr "Call"), none, fun _ => some (pystr "http://x/a.pdf")⟩

def exEvJan2 : Event :=
  ⟨some (pystr "2024-01-02"), some (pystr "Call"), none, fun _ => some (pystr "http://x/a.pdf")⟩

def exEvJan4 : Event :=
  ⟨some (pystr "2024-01-04"), some (pystr "Call"), none, fun _ => some (pystr "http://x/a.pdf")⟩

/-- Witness for C6 with the window [2024-01-02, 2024-01-03]: an event on the
start bound is a candidate; events one day before the start and one day after
the end are not. -/
theorem C6_witness :
    candidateB (pystr "2024-01-02") (pystr "2024-01-03") exEvJan2 (pystr "slides") = true ∧
    candidateB (pystr "2024-01-02") (pystr "2024-01-03") exEvJan1 (pystr "slides") = false ∧
    candidateB (pystr "2024-01-02") (pystr "2024-01-03") exEvJan4 (pystr "slides") = false := by
  have h1 := C6_theorem ⟨2024, 1, 2⟩ ⟨2024, 1, 3⟩ ⟨2024, 1, 1⟩ (by decide) (by decide)
    (by decide) exEvJan2 (pystr "slides") (by decide) (by decide)
  have h2 := C6_theorem ⟨2024, 1, 2⟩ ⟨2024, 1, 3⟩ ⟨2024, 1, 1⟩ (by decide) (by decide)
    (by decide) exEvJan1 (pystr "slides") (by decide) (by decide)
  have h3 := C6_theorem ⟨2024, 1, 2⟩ ⟨2024, 1, 3⟩ ⟨2024, 1, 1⟩ (by decide) (by decide)
    (by decide) exEvJan4 (pystr "slides") (by decide) (by decide)
  exact ⟨h1.1 (Or.inl rfl), h2.2.1 rfl rfl, h3.2.2 rfl⟩

/-! ## Per-candidate accounting lemmas -/

theorem handleCandidate_ok_counts (ce : CandEnv) (bucket : Str) (c : Cand)
    (st st' : RunState) (h : handleCandidate ce bucket c st = Except.ok st') :
    st'.processed = st.processed + 1 ∧
    (candSuccess ce c = true ∧ createRecordResult ce c = true →
      st'.successful = st.successful + 1 ∧ st'.failed = st.failed) ∧
    (¬(candSuccess ce c = true ∧ createRecordResult ce c = true) →
      st'.failed = st.failed + 1 ∧ st'.successful = st.successful) := by
  cases hfa : fetchArtifact ce c with
  | error e => simp [handleCandidate, hfa] at h
  | ok oa =>
    have hcs : candSuccess ce c = (match (Except.ok oa : Except Unit (Option Artifact)) with
        | Except.ok (some _) => ce.uploadOk
        | _ => false) := by
      rw [candSuccess, hfa]
    cases oa with
    | none =>
      simp only [handleCandidate, hfa, Except.ok.injEq] at h
      subst h
      refine ⟨rfl, ?_, ?_⟩
      · intro hss
        rw [hcs] at hss
        simp at hss
      · intro _
        exact ⟨rfl, rfl⟩
    | some a =>
      have hcs2 : candSuccess ce c = ce.uploadOk := hcs
      by_cases hu : ce.uploadOk = true
      · by_cases hi : ce.airtableInitOk = true
        · by_cases hcr : createRecordResult ce c = true
          · simp only [handleCandidate, hfa, hu, hi, hcr, if_true, Except.ok.injEq] at h
            subst h
            refine ⟨rfl, ?_, ?_⟩
            · intro _; exact ⟨rfl, rfl⟩
            · intro hneg
              exact absurd ⟨hcs2.trans hu, hcr⟩ hneg
          · simp only [handleCandidate, hfa, hu, hi, hcr, if_true, Bool.false_eq_true,
              if_false, Except.ok.injEq] at h
            subst h
            refine ⟨rfl, ?_, ?_⟩
            · intro hss
              exact absurd hss.2 hcr
            · intro _; exact ⟨rfl, rfl⟩
        · have hi2 : ce.airtableInitOk = false := by
            cases hv : ce.airtableInitOk
            · rfl
            · exact absurd hv hi
          simp [handleCandidate, hfa, hu, hi2] at h
      · have hu2 : ce.uploadOk = false := by
          cases hv : ce.uploadOk
          · rfl
          · exact absurd hv hu
        simp only [handleCandidate, hfa, hu2, Bool.false_eq_true, if_false,
          Except.ok.injEq] at h
        subst h
        refine ⟨rfl, ?_, ?_⟩
        · intro hss
          rw [hcs2, hu2] at hss
          simp at hss
        · intro _; exact ⟨rfl, rfl⟩

theorem handleCandidate_error_counts (ce : CandEnv) (bucket : Str) (c : Cand)
    (st st' : RunState) (h : handleCandidate ce bucket c st = Except.error st') :
    st'.processed = st.processed ∧ st'.successful = st.successful ∧
    st'.failed = st.failed := by
  cases hfa : fetchArtifact ce c with
  | error e =>
    simp only [handleCandidate, hfa, Except.error.injEq] at h
    subst h
    exact ⟨rfl, rfl, rfl⟩
  | ok oa =>
    cases oa with
    | none => simp [handleCandidate, hfa] at h
    | some a =>
      by_cases hu : ce.uploadOk = true
      · by_cases hi : ce.airtableInitOk = true
        · by_cases hcr : createRecordResult ce c = true <;>
            simp [handleCandidate, hfa, hu, hi, hcr] at h
        · have hi2 : ce.airtableInitOk = false := by
            cases hv : ce.airtableInitOk
            · rfl
            · exact absurd hv hi
          simp only [handleCandidate, hfa, hu, hi2, if_true, Bool.false_eq_true,
            if_false, Except.error.injEq] at h
          subst h
          exact ⟨rfl, rfl, rfl⟩
      · have hu2 : ce.uploadOk = false := by
          cases hv : ce.uploadOk
          · rfl
          · exact absurd hv hu
        simp [handleCandidate, hfa, hu2] at h

theorem fetchArtifact_isOk (ce : CandEnv) (c : Cand)
    (hff : ce.fileFetch ≠ FileRes.raised) :
    ∃ oa, fetchArtifact ce c = Except.ok oa := by
  cases hh : fetchArtifact ce c with
  | ok oa => exact ⟨oa, rfl⟩
  | error e =>
    exfalso
    by_cases h1 : c.docType = pystr "transcript"
    · simp only [fetchArtifact] at hh
      rw [if_pos h1] at hh
      cases htr : c.ev.transcripts with
      | none =>
        simp only [htr] at hh
        exact Except.noConfusion hh
      | some t =>
        simp only [htr] at hh
        split at hh <;> exact Except.noConfusion hh
    · cases hf : ce.fileFetch with
      | raised => exact hff hf
      | resp status ct tag =>
        simp only [fetchArtifact, hf] at hh
        rw [if_neg h1] at hh
        split at hh <;> split at hh <;> exact Except.noConfusion hh

theorem handleCandidate_safe (ce : CandEnv) (bucket : Str) (c : Cand) (st : RunState)
    (hff : ce.fileFetch ≠ FileRes.raised) (hinit : ce.airtableInitOk = true) :
    ∃ st', handleCandidate ce bucket c st = Except.ok st' := by
  cases hh : handleCandidate ce bucket c st with
  | ok st' => exact ⟨st', rfl⟩
  | error e =>
    exfalso
    obtain ⟨oa, hfa⟩ := fetchArtifact_isOk ce c hff
    cases oa with
    | none =>
      simp only [handleCandidate, hfa] at hh
      exact Except.noConfusion hh
    | some a =>
      by_cases hu : ce.uploadOk = true
      · simp only [handleCandidate, hfa] at hh
        rw [if_pos hu, if_pos hinit] at hh
        split at hh <;> exact Except.noConfusion hh
      · simp only [handleCandidate, hfa] at hh
        rw [if_neg hu] at hh
        exact Except.noConfusion hh

/-! ## Level-by-level accounting for the processing pass -/

theorem processSel_ok (env : Nat → CandEnv) (bucket name isin : Str) (ev : Event) :
    ∀ (sel : List Str) (st st' : RunState),
      processSel env bucket name isin ev sel st = Except.ok st' →
      st'.processed = st.processed + countSel sel ev ∧
      (st.successful + st.failed = st.processed →
        st'.successful + st'.failed = st'.processed) := by
  intro sel
  induction sel with
  | nil =>
    intro st st' h
    simp only [processSel, Except.ok.injEq] at h
    subst h
    simp [countSel]
  | cons dt rest ih =>
    intro st st' h
    simp only [processSel] at h
    by_cases hu : truthyStr (ev.docUrl dt) = true
    · rw [if_pos hu] at h
      cases hh : handleCandidate (env st.processed) bucket
          ⟨name, isin, ev, dt, (ev.docUrl dt).getD []⟩ st with
      | error e =>
        simp only [hh] at h
        exact Except.noConfusion h
      | ok st1 =>
        simp only [hh] at h
        obtain ⟨hp, hinv⟩ := ih st1 st' h
        obtain ⟨hp1, hsucc, hfail⟩ := handleCandidate_ok_counts _ _ _ _ _ hh
        have hcount : countSel (dt :: rest) ev = countSel rest ev + 1 := by
          simp [countSel, List.countP_cons, hu]
        refine ⟨by rw [hp, hp1, hcount]; omega, ?_⟩
        intro hstart
        apply hinv
        by_cases hcs : candSuccess (env st.processed)
            ⟨name, isin, ev, dt, (ev.docUrl dt).getD []⟩ = true ∧
            createRecordResult (env st.processed)
              ⟨name, isin, ev, dt, (ev.docUrl dt).getD []⟩ = true
        · obtain ⟨h1, h2⟩ := hsucc hcs
          omega
        · obtain ⟨h1, h2⟩ := hfail hcs
          omega
    · rw [if_neg hu] at h
      obtain ⟨hp, hinv⟩ := ih st st' h
      have hcount : countSel (dt :: rest) ev = countSel rest ev := by
        simp [countSel, List.countP_cons, hu]
      exact ⟨by rw [hp, hcount], hinv⟩

theorem processSel_error (env : Nat → CandEnv) (bucket name isin : Str) (ev : Event) :
    ∀ (sel : List Str) (st e : RunState),
      processSel env bucket name isin ev sel st = Except.error e →
      (st.successful + st.failed = st.processed →
        e.successful + e.failed = e.processed) := by
  intro sel
  induction sel with
  | nil =>
    intro st e h
    exact absurd h (by simp [processSel])
  | cons dt rest ih =>
    intro st e h
    simp only [processSel] at h
    by_cases hu : truthyStr (ev.docUrl dt) = true
    · rw [if_pos hu] at h
      cases hh : handleCandidate (env st.processed) bucket
          ⟨name, isin, ev, dt, (ev.docUrl dt).getD []⟩ st with
      | error e2 =>
        simp only [hh, Except.error.injEq] at h
        subst h
        obtain ⟨hp, hs, hf⟩ := handleCandidate_error_counts _ _ _ _ _ hh
        intro hstart
        omega
      | ok st1 =>
        simp only [hh] at h
        intro hstart
        apply ih st1 e h
        obtain ⟨hp1, hsucc, hfail⟩ := handleCandidate_ok_counts _ _ _ _ _ hh
        by_cases hcs : candSuccess (env st.processed)
            ⟨name, isin, ev, dt, (ev.docUrl dt).getD []⟩ = true ∧
            createRecordResult (env st.processed)
              ⟨name, isin, ev, dt, (ev.docUrl dt).getD []⟩ = true
        · obtain ⟨h1, h2⟩ := hsucc hcs
          omega
        · obtain ⟨h1, h2⟩ := hfail hcs
          omega
    · rw [if_neg hu] at h
      exact ih st e h

theorem processSel_safe (env : Nat → CandEnv) (bucket name isin : Str) (ev : Event)
    (henv : ∀ n, (env n).fileFetch ≠ FileRes.raised ∧ (env n).airtableInitOk = true) :
    ∀ (sel : List Str) (st : RunState),
      ∃ st', processSel env bucket name isin ev sel st = Except.ok st' := by
  intro sel
  induction sel with
  | nil => intro st; exact ⟨st, rfl⟩
  | cons dt rest ih =>
    intro st
    by_cases hu : truthyStr (ev.docUrl dt) = true
    · obtain ⟨st1, hh⟩ := handleCandidate_safe (env st.processed) bucket
        ⟨name, isin, ev, dt, (ev.docUrl dt).getD []⟩ st
        (henv st.processed).1 (henv st.processed).2
      obtain ⟨st', hrest⟩ := ih st1
      refine ⟨st', ?_⟩
      simp only [processSel]
      rw [if_pos hu]
      simp only [hh]
      exact hrest
    · obtain ⟨st', hrest⟩ := ih st
      refine ⟨st', ?_⟩
      simp only [processSel]
      rw [if_neg hu]
      exact hrest

theorem processEvent_ok (env : Nat → CandEnv) (bucket startD endD name isin : Str)
    (sel : List Str) (ev : Event) (st st' : RunState)
    (h : processEvent env bucket startD endD name isin sel ev st = Except.ok st') :
    st'.processed = st.processed + countEvent startD endD sel ev ∧
    (st.successful + st.failed = st.processed →
      st'.successful + st'.failed = st'.processed) := by
  by_cases hw : inWindow startD endD ev = true
  · rw [processEvent, if_pos hw] at h
    rw [countEvent, if_pos hw]
    exact processSel_ok env bucket name isin ev sel st st' h
  · rw [processEvent, if_neg hw] at h
    simp only [Except.ok.injEq] at h
    subst h
    rw [countEvent, if_neg hw]
    exact ⟨by omega, fun x => x⟩

theorem processEvent_error (env : Nat → CandEnv) (bucket startD endD name isin : Str)
    (sel : List Str) (ev : Event) (st e : RunState)
    (h : processEvent env bucket startD endD name isin sel ev st = Except.error e) :
    (st.successful + st.failed = st.processed →
      e.successful + e.failed = e.processed) := by
  by_cases hw : inWindow startD endD ev = true
  · rw [processEvent, if_pos hw] at h
    exact processSel_error env bucket name isin ev sel st e h
  · rw [processEvent, if_neg hw] at h
    exact absurd h (by simp)

theorem processEvent_safe (env : Nat → CandEnv) (bucket startD endD name isin : Str)
    (sel : List Str) (ev : Event) (st : RunState)
    (henv : ∀ n, (env n).fileFetch ≠ FileRes.raised ∧ (env n).airtableInitOk = true) :
    ∃ st', processEvent env bucket startD endD name isin sel ev st = Except.ok st' := by
  by_cases hw : inWindow startD endD ev = true
  · obtain ⟨st', hh⟩ := processSel_safe env bucket name isin ev henv sel st
    exact ⟨st', by rw [processEvent, if_pos hw]; exact hh⟩
  · exact ⟨st, by rw [processEvent, if_neg hw]⟩

theorem processEvents_ok (env : Nat → CandEnv) (bucket startD endD name isin : Str)
    (sel : List Str) :
    ∀ (evs : List Event) (st st' : RunState),
      processEvents env bucket startD endD name isin sel evs st = Except.ok st' →
      st'.processed = st.processed + (evs.map (countEvent startD endD sel)).sum ∧
      (st.successful + st.failed = st.processed →
        st'.successful + st'.failed = st'.processed) := by
  intro evs
  induction evs with
  | nil =>
    intro st st' h
    simp only [processEvents, Except.ok.injEq] at h
    subst h
    simp
  | cons ev rest ih =>
    intro st st' h
    simp only [processEvents] at h
    cases hh : processEvent env bucket startD endD name isin sel ev st with
    | error e =>
      simp only [hh] at h
      exact Except.noConfusion h
    | ok st1 =>
      simp only [hh] at h
      obtain ⟨hp, hinv⟩ := ih st1 st' h
      obtain ⟨hp1, hinv1⟩ := processEvent_ok env bucket startD endD name isin sel ev st st1 hh
      refine ⟨?_, fun hstart => hinv (hinv1 hstart)⟩
      rw [hp, hp1]
      simp [List.sum_cons]
      omega

theorem processEvents_error (env : Nat → CandEnv) (bucket startD endD name isin : Str)
    (sel : List Str) :
    ∀ (evs : List Event) (st e : RunState),
      processEvents env bucket startD endD name isin sel evs st = Except.error e →
      (st.successful + st.failed = st.processed →
        e.successful + e.failed = e.processed) := by
  intro evs
  induction evs with
  | nil =>
    intro st e h
    exact absurd h (by simp [processEvents])
  | cons ev rest ih =>
    intro st e h
    simp only [processEvents] at h
    cases hh : processEvent env bucket startD endD name isin sel ev st with
    | error e2 =>
      simp only [hh, Except.error.injEq] at h
      subst h
      exact processEvent_error env bucket startD endD name isin sel ev st e2 hh
    | ok st1 =>
      simp only [hh] at h
      intro hstart
      obtain ⟨_, hinv1⟩ := processEvent_ok env bucket startD endD name isin sel ev st st1 hh
      exact ih st1 e h (hinv1 hstart)

theorem processEvents_safe (env : Nat → CandEnv) (bucket startD endD name isin : Str)
    (sel : List Str)
    (henv : ∀ n, (env n).fileFetch ≠ FileRes.raised ∧ (env n).airtableInitOk = true) :
    ∀ (evs : List Event) (st : RunState),
      ∃ st', processEvents env bucket startD endD name isin sel evs st = Except.ok st' := by
  intro evs
  induction evs with
  | nil => intro st; exact ⟨st, rfl⟩
  | cons ev rest ih =>
    intro st
    obtain ⟨st1, hh⟩ := processEvent_safe env bucket startD endD name isin sel ev st henv
    obtain ⟨st', hrest⟩ := ih st1
    refine ⟨st', ?_⟩
    simp only [processEvents, hh]
    exact hrest

theorem processCompany_ok (env : Nat → CandEnv) (bucket startD endD : Str)
    (sel : List Str) (c : CompanyDict) (st st' : RunState)
    (h : processCompany env bucket startD endD sel c st = Except.ok st') :
    st'.processed = st.processed + countCompany startD endD sel c ∧
    (st.successful + st.failed = st.processed →
      st'.successful + st'.failed = st'.processed) := by
  cases hm : c.isins.getD [pystr "unknown"] with
  | nil =>
    simp only [processCompany, hm] at h
    exact Except.noConfusion h
  | cons isin rest =>
    simp only [processCompany, hm] at h
    rw [countCompany]
    exact processEvents_ok env bucket startD endD (c.displayName.getD (pystr "unknown"))
      isin sel (c.events.getD []) st st' h

theorem processCompany_error (env : Nat → CandEnv) (bucket startD endD : Str)
    (sel : List Str) (c : CompanyDict) (st e : RunState)
    (h : processCompany env bucket startD endD sel c st = Except.error e) :
    (st.successful + st.failed = st.processed →
      e.successful + e.failed = e.processed) := by
  cases hm : c.isins.getD [pystr "unknown"] with
  | nil =>
    simp only [processCompany, hm, Except.error.injEq] at h
    subst h
    exact fun hstart => hstart
  | cons isin rest =>
    simp only [processCompany, hm] at h
    exact processEvents_error env bucket startD endD (c.displayName.getD (pystr "unknown"))
      isin sel (c.events.getD []) st e h

theorem processCompany_safe (env : Nat → CandEnv) (bucket startD endD : Str)
    (sel : List Str) (c : CompanyDict) (st : RunState)
    (henv : ∀ n, (env n).fileFetch ≠ FileRes.raised ∧ (env n).airtableInitOk = true)
    (hisins : c.isins ≠ some []) :
    ∃ st', processCompany env bucket startD endD sel c st = Except.ok st' := by
  cases hm : c.isins.getD [pystr "unknown"] with
  | nil =>
    exfalso
    cases hi : c.isins with
    | none => rw [hi] at hm; exact List.noConfusion hm
    | some l =>
      rw [hi] at hm
      simp only [Option.getD_some] at hm
      subst hm
      exact hisins hi
  | cons isin rest =>
    obtain ⟨st', hh⟩ := processEvents_safe env bucket startD endD
      (c.displayName.getD (pystr "unknown")) isin sel henv (c.events.getD []) st
    refine ⟨st', ?_⟩
    simp only [processCompany, hm]
    exact hh

theorem processCompanies_ok (env : Nat → CandEnv) (bucket startD endD : Str)
    (sel : List Str) :
    ∀ (companies : List CompanyDict) (st st' : RunState),
      processCompanies env bucket startD endD sel companies st = Except.ok st' →
      st'.processed = st.processed + countTotal startD endD sel companies ∧
      (st.successful + st.failed = st.processed →
        st'.successful + st'.failed = st'.processed) := by
  intro companies
  induction companies with
  | nil =>
    intro st st' h
    simp only [processCompanies, Except.ok.injEq] at h
    subst h
    simp [countTotal]
  | cons c rest ih =>
    intro st st' h
    simp only [processCompanies] at h
    cases hh : processCompany env bucket startD endD sel c st with
    | error e =>
      simp only [hh] at h
      exact Except.noConfusion h
    | ok st1 =>
      simp only [hh] at h
      obtain ⟨hp, hinv⟩ := ih st1 st' h
      obtain ⟨hp1, hinv1⟩ := processCompany_ok env bucket startD endD sel c st st1 hh
      refine ⟨?_, fun hstart => hinv (hinv1 hstart)⟩
      rw [hp, hp1]
      simp [countTotal, List.sum_cons]
      omega

theorem processCompanies_error (env : Nat → CandEnv) (bucket startD endD : Str)
    (sel : List Str) :
    ∀ (companies : List CompanyDict) (st e : RunState),
      processCompanies env bucket startD endD sel companies st = Except.error e →
      (st.successful + st.failed = st.processed →
        e.successful + e.failed = e.processed) := by
  intro companies
  induction companies with
  | nil =>
    intro st e h
    exact absurd h (by simp [processCompanies])
  | cons c rest ih =>
    intro st e h
    simp only [processCompanies] at h
    cases hh : processCompany env bucket startD endD sel c st with
    | error e2 =>
      simp only [hh, Except.error.injEq] at h
      subst h
      exact processCompany_error env bucket startD endD sel c st e2 hh
    | ok st1 =>
      simp only [hh] at h
      intro hstart
      obtain ⟨_, hinv1⟩ := processCompany_ok env bucket startD endD sel c st st1 hh
      exact ih st1 e h (hinv1 hstart)

theorem processCompanies_safe (env : Nat → CandEnv) (bucket startD endD : Str)
    (sel : List Str)
    (henv : ∀ n, (env n).fileFetch ≠ FileRes.raised ∧ (env n).airtableInitOk = true) :
    ∀ (companies : List CompanyDict) (st : RunState),
      (∀ c ∈ companies, c.isins ≠ some []) →
      ∃ st', processCompanies env bucket startD endD sel companies st = Except.ok st' := by
  intro companies
  induction companies with
  | nil => intro st _; exact ⟨st, rfl⟩
  | cons c rest ih =>
    intro st hall
    obtain ⟨st1, hh⟩ := processCompany_safe env bucket startD endD sel c st henv
      (hall c (List.mem_cons_self c rest))
    obtain ⟨st', hrest⟩ := ih st1 (fun x hx => hall x (List.mem_cons_of_mem c hx))
    refine ⟨st', ?_⟩
    simp only [processCompanies, hh]
    exact hrest

/-! ## Further fixtures -/

def exEnvRaise : Nat → CandEnv :=
  fun _ => ⟨TFetchRes.raised, FileRes.raised, true, true, true⟩

def exCandEnvOk : CandEnv := ⟨TFetchRes.raised, FileRes.resp 200 none 7, true, true, true⟩

def exCandAudio : Cand :=
  ⟨pystr "Acme Corp", pystr "US0001", exEventAudio, pystr "audio",
    pystr "http://cdn.example.com/files/q2.mp3"⟩

def exEventTr : Event :=
  ⟨some (pystr "2024-06-01"), some (pystr "Call"), some ⟨some (pystr "http://x/raw")⟩,
    fun dt => if dt = pystr "transcript" then some (pystr "http://x/t") else none⟩

def exCandEnv404 : CandEnv := ⟨TFetchRes.resp 404 none false [], FileRes.raised, true, true, true⟩

def exCandTr : Cand := ⟨pystr "Acme", pystr "US1", exEventTr, pystr "transcript", pystr "http://x/t"⟩

/-- The state produced by the single successful audio candidate of the
`exProvider`/`exEnvOk` fixture run. -/
def exFinalState : RunState :=
  ⟨1, 1, 0,
    [⟨pystr "bkt", pystr "acme_corp/2024-06-01/audio/q2_call.mp3", pystr "audio/mp3",
      Blob.fetched 7⟩],
    [⟨pystr "Acme Corp", pystr "US0001",
      pystr "s3://bkt/acme_corp/2024-06-01/audio/q2_call.mp3",
      pystr "2024-06-01T14:00:00", pystr "Q2 Call", pystr "audio"⟩]⟩

/-! ## C5: counter accounting -/

/-- C5 counterexample: a run that reaches the processing pass (Phase-3 total
is 1) but whose single candidate raises a transport exception during the
direct fetch ends aborted with `processed = 0 ≠ 1`: the processed count does
not end equal to the Phase-3 total for every run that reaches the pass. -/
theorem C5_counterexample :
    countTotal (pystr "2024-01-01") (pystr "2024-12-31") [pystr "audio"]
      (companiesData exProvider [pystr "US0001"]) = 1 ∧
    run exProvider exEnvRaise [pystr "US0001"] (pystr "2024-01-01") (pystr "2024-12-31")
      [pystr "audio"] (pystr "bkt") = (Outcome.aborted, initState) ∧
    initState.processed = 0 := by
  refine ⟨by decide, by decide, rfl⟩

/-- C5 (corrected): in every run, `successful + failed = processed` holds at
run end (for completed runs, aborted runs, and both early exits); a run whose
processing pass *completes* ends with `processed` equal to the Phase-3 total;
and each handled candidate increments `processed` by exactly one, with
`successful` incremented exactly when both the upload and the metadata write
succeeded and `failed` incremented otherwise.  (A run aborted by an uncaught
per-candidate exception ends with `processed` equal to the number of
candidates handled before the abort, which can be smaller than the total —
see the counterexample.) -/
theorem C5_theorem (provider : Str → Option CompanyDict) (env : Nat → CandEnv)
    (isins : List Str) (startD endD : Str) (sel : List Str) (bucket : Str)
    (o : Outcome) (st : RunState)
    (hrun : run provider env isins startD endD sel bucket = (o, st)) :
    st.successful + st.failed = st.processed ∧
    (∀ total, o = Outcome.completed total → st.processed = total) ∧
    (∀ (ce : CandEnv) (bkt : Str) (c : Cand) (st0 st1 : RunState),
      handleCandidate ce bkt c st0 = Except.ok st1 →
      st1.processed = st0.processed + 1 ∧
      (candSuccess ce c = true ∧ createRecordResult ce c = true →
        st1.successful = st0.successful + 1 ∧ st1.failed = st0.failed) ∧
      (¬(candSuccess ce c = true ∧ createRecordResult ce c = true) →
        st1.failed = st0.failed + 1 ∧ st1.successful = st0.successful)) := by
  have hmain : st.successful + st.failed = st.processed ∧
      (∀ total, o = Outcome.completed total → st.processed = total) := by
    simp only [run] at hrun
    by_cases hv : (validIsins provider isins).isEmpty = true
    · rw [if_pos hv] at hrun
      simp only [Prod.mk.injEq] at hrun
      obtain ⟨ho, hst⟩ := hrun
      subst hst
      refine ⟨rfl, fun total hco => ?_⟩
      rw [hco] at ho
      exact Outcome.noConfusion ho
    · rw [if_neg hv] at hrun
      by_cases ht : countTotal startD endD sel (companiesData provider isins) = 0
      · rw [if_pos ht] at hrun
        simp only [Prod.mk.injEq] at hrun
        obtain ⟨ho, hst⟩ := hrun
        subst hst
        refine ⟨rfl, fun total hco => ?_⟩
        rw [hco] at ho
        exact Outcome.noConfusion ho
      · rw [if_neg ht] at hrun
        cases hpc : processCompanies env bucket startD endD sel
            (companiesData provider isins) initState with
        | ok stf =>
          simp only [hpc, Prod.mk.injEq] at hrun
          obtain ⟨ho, hst⟩ := hrun
          subst hst
          obtain ⟨hp, hinv⟩ := processCompanies_ok env bucket startD endD sel
            (companiesData provider isins) initState stf hpc
          refine ⟨hinv rfl, fun total hco => ?_⟩
          rw [hco] at ho
          injection ho with htot
          rw [hp, htot]
          simp [initState]
        | error ste =>
          simp only [hpc, Prod.mk.injEq] at hrun
          obtain ⟨ho, hst⟩ := hrun
          subst hst
          have hinv := processCompanies_error env bucket startD endD sel
            (companiesData provider isins) initState ste hpc
          refine ⟨hinv rfl, fun total hco => ?_⟩
          rw [hco] at ho
          exact Outcome.noConfusion ho
  exact ⟨hmain.1, hmain.2,
    fun ce bkt c st0 st1 hok => handleCandidate_ok_counts ce bkt c st0 st1 hok⟩

/-- Witness for C5 on a completed single-candidate run. -/
theorem C5_witness :
    exFinalState.successful + exFinalState.failed = exFinalState.processed ∧
    exFinalState.processed = 1 := by
  have h := C5_theorem exProvider exEnvOk [pystr "US0001"] (pystr "2024-01-01")
    (pystr "2024-12-31") [pystr "audio"] (pystr "bkt") (Outcome.completed 1) exFinalState
    (by decide)
  exact ⟨h.1, h.2.1 1 rfl⟩

/-! ## C1: error isolation -/

/-- C1 counterexample: a transport exception raised while fetching a single
audio candidate is *not* caught at the candidate boundary — the run aborts
(the source re-raises, app.py:410-412) with the failed count still 0 instead
of incrementing it and continuing. -/
theorem C1_counterexample :
    run exProvider exEnvRaise [pystr "US0001"] (pystr "2024-01-01") (pystr "2024-12-31")
      [pystr "audio"] (pystr "bkt") = (Outcome.aborted, ⟨0, 0, 0, [], []⟩) := by
  decide

/-- C1 (corrected): exceptions raised *inside* the provider fetch, transcript
processing, S3 upload and Airtable `create_record` are caught within those
components and surface as failure results, so a run whose per-candidate
environment raises no uncaught exception — no transport error during a direct
audio/slides/report fetch, per-candidate `AirtableHandler()` construction
succeeding — and whose provider data has no present-but-empty `isins` list,
never aborts: it ends in one of the two reported early exits or completes. -/
theorem C1_theorem (provider : Str → Option CompanyDict) (env : Nat → CandEnv)
    (isins : List Str) (startD endD : Str) (sel : List Str) (bucket : Str)
    (henv : ∀ n, (env n).fileFetch ≠ FileRes.raised ∧ (env n).airtableInitOk = true)
    (hprov : ∀ i c, provider i = some c → c.isins ≠ some []) :
    (run provider env isins startD endD sel bucket).1 ≠ Outcome.aborted := by
  by_cases hv : (validIsins provider isins).isEmpty = true
  · simp only [run]
    rw [if_pos hv]
    simp
  · by_cases ht : countTotal startD endD sel (companiesData provider isins) = 0
    · simp only [run]
      rw [if_neg hv, if_pos ht]
      simp
    · have hall : ∀ c ∈ companiesData provider isins, c.isins ≠ some [] := by
        intro c hc
        obtain ⟨i, _, hpi⟩ := List.mem_filterMap.mp hc
        exact hprov i c hpi
      obtain ⟨stf, hpc⟩ := processCompanies_safe env bucket startD endD sel henv
        (companiesData provider isins) initState hall
      simp only [run]
      rw [if_neg hv, if_neg ht]
      simp only [hpc]
      simp

/-- Witness for C1: the all-successful fixture run never aborts. -/
theorem C1_witness :
    (run exProvider exEnvOk [pystr "US0001"] (pystr "2024-01-01") (pystr "2024-12-31")
      [pystr "audio"] (pystr "bkt")).1 ≠ Outcome.aborted := by
  apply C1_theorem
  · intro n
    exact ⟨fun hc => FileRes.noConfusion hc, rfl⟩
  · intro i c h
    by_cases hi : i = pystr "US0001"
    · simp only [exProvider] at h
      rw [if_pos hi] at h
      simp only [Option.some.injEq] at h
      subst h
      decide
    · simp only [exProvider] at h
      rw [if_neg hi] at h
      exact Option.noConfusion h

/-! ## C4: metadata write iff upload success -/

theorem append_singleton_ne {α : Type} (l : List α) (a : α) : l ++ [a] ≠ l := by
  intro h
  have := congrArg List.length h
  simp at this

/-- C4 (confirmed): for every candidate whose handling completes (does not
abort the run), the metadata write (`create_record`) is invoked iff the
upload for that candidate reported success; when it is invoked, exactly one
record is appended and its storage URL is `s3://bucket/key` for the key of
the upload appended in the same step — never before an upload, never after a
failed one. -/
theorem C4_theorem (ce : CandEnv) (bucket : Str) (c : Cand) (st st' : RunState)
    (h : handleCandidate ce bucket c st = Except.ok st') :
    (st'.records ≠ st.records ↔ candSuccess ce c = true) ∧
    (candSuccess ce c = true →
      ∃ a : Artifact, fetchArtifact ce c = Except.ok (some a) ∧ ce.uploadOk = true ∧
        st'.uploads = st.uploads ++ [⟨bucket, a.key, a.contentType, a.blob⟩] ∧
        st'.records = st.records ++ [mkMetaRec c bucket a.key]) ∧
    (candSuccess ce c = false → st'.records = st.records) := by
  cases hfa : fetchArtifact ce c with
  | error e => simp [handleCandidate, hfa] at h
  | ok oa =>
    cases oa with
    | none =>
      have hcs : candSuccess ce c = false := by rw [candSuccess, hfa]
      simp only [handleCandidate, hfa, Except.ok.injEq] at h
      subst h
      refine ⟨⟨fun hne => absurd rfl hne, fun ht => Bool.noConfusion (hcs.symm.trans ht)⟩,
        fun ht => Bool.noConfusion (hcs.symm.trans ht), fun _ => rfl⟩
    | some a =>
      have hcs : candSuccess ce c = ce.uploadOk := by rw [candSuccess, hfa]
      by_cases hu : ce.uploadOk = true
      · have hctrue : candSuccess ce c = true := by rw [hcs]; exact hu
        by_cases hi : ce.airtableInitOk = true
        · simp only [handleCandidate, hfa] at h
          rw [if_pos hu, if_pos hi] at h
          split at h <;>
            · simp only [Except.ok.injEq] at h
              subst h
              exact ⟨⟨fun _ => hctrue, fun _ => append_singleton_ne _ _⟩,
                fun _ => ⟨a, rfl, hu, rfl, rfl⟩,
                fun hf => Bool.noConfusion (hctrue.symm.trans hf)⟩
        · simp only [handleCandidate, hfa] at h
          rw [if_pos hu, if_neg hi] at h
          exact Except.noConfusion h
      · have hcfalse : candSuccess ce c = false := by
          rw [hcs]
          cases hvv : ce.uploadOk
          · rfl
          · exact absurd hvv hu
        simp only [handleCandidate, hfa] at h
        rw [if_neg hu] at h
        simp only [Except.ok.injEq] at h
        subst h
        exact ⟨⟨fun hne => absurd rfl hne, fun ht => Bool.noConfusion (hcfalse.symm.trans ht)⟩,
          fun ht => Bool.noConfusion (hcfalse.symm.trans ht), fun _ => rfl⟩

/-- Witness for C4 on a concrete successful audio candidate. -/
theorem C4_witness :
    candSuccess exCandEnvOk exCandAudio = true ∧
    (exFinalState.records ≠ initState.records ↔
      candSuccess exCandEnvOk exCandAudio = true) := by
  have h := C4_theorem exCandEnvOk (pystr "bkt") exCandAudio initState exFinalState rfl
  exact ⟨by decide, h.1⟩

/-! ## C2: fetch/transform failures and the counters -/

/-- C2 counterexample: a transcript candidate whose raw-transcript fetch
returns 404 produces no artifact, yet the source still increments *both* the
processed count and the failed count (app.py:385-388) — the claim says
neither is incremented. -/
theorem C2_counterexample :
    handleCandidate exCandEnv404 (pystr "bkt") exCandTr initState =
      Except.ok ⟨1, 0, 1, [], []⟩ := by
  rfl

/-- C2 (corrected): a candidate whose fetch/transform produces no artifact —
for a transcript candidate: an absent/empty transcripts object or any
`process_transcript` failure (absent raw URL, transport error, non-200,
wrong content type, undecodable body, empty extracted text); for an
audio/slides/report candidate: a non-200 response — never reaches the upload
or the metadata write, but it is still counted: both the failed count and the
processed count are incremented for it. -/
theorem C2_theorem (ce : CandEnv) (bucket : Str) (c : Cand) (st : RunState)
    (h : (c.docType = pystr "transcript" ∧
            (c.ev.transcripts = none ∨
              ∃ t, c.ev.transcripts = some t ∧ processTranscript t ce.tFetch = [])) ∨
          (c.docType ≠ pystr "transcript" ∧
            ∃ status ct tag, ce.fileFetch = FileRes.resp status ct tag ∧ status ≠ 200)) :
    fetchArtifact ce c = Except.ok none ∧
    handleCandidate ce bucket c st =
      Except.ok { st with failed := st.failed + 1, processed := st.processed + 1 } := by
  have hfa : fetchArtifact ce c = Except.ok none := by
    rcases h with ⟨hdt, htr⟩ | ⟨hdt, status, ct, tag, hf, hstat⟩
    · simp only [fetchArtifact]
      rw [if_pos hdt]
      rcases htr with hnone | ⟨t, hsome, htext⟩
      · simp only [hnone]
      · simp [hsome, htext]
    · simp only [fetchArtifact, hf]
      rw [if_neg hdt]
      by_cases h2 : c.docType = pystr "audio"
      · rw [if_pos h2, if_neg hstat]
      · rw [if_neg h2, if_neg hstat]
  exact ⟨hfa, by simp [handleCandidate, hfa]⟩

/-- Witness for C2 on a concrete 404-transcript candidate. -/
theorem C2_witness :
    fetchArtifact exCandEnv404 exCandTr = Except.ok none ∧
    handleCandidate exCandEnv404 (pystr "bkt") exCandTr initState =
      Except.ok { initState with failed := initState.failed + 1, processed := initState.processed + 1 } :=
  C2_theorem exCandEnv404 (pystr "bkt") exCandTr initState
    (Or.inl ⟨rfl, Or.inr ⟨⟨some (pystr "http://x/raw")⟩, rfl, by decide⟩⟩)
